import Mathlib

/-!
# ANSI attribute handling (`ansi/attribute.go`)

A shallow embedding of the attribute part of the `ansi` package: the attribute
codes, the serialisers `AttributeList.ANSI` and `Set`, the glyph lookup
`IBMExtend`, and the colour resolver `AttributeList.ColourConsildate`, followed
by theorems about them.

Modelling conventions.
* `Attribute` is Go's `byte`; it is embedded as a `Nat`, and the only arithmetic
  the code performs on it (the `+ 60` promotion) is reduced `% 256`.
* A Go `string` is embedded as the list of its characters (`List Char`); every
  string built by the serialisers is ASCII, so characters and bytes coincide
  there.  The entries of `IBMTable` are one glyph each and are embedded as that
  one character.
* `fmt.Sprintf("%d", v)` on a byte is its decimal rendering, `Nat.toDigits 10 v`.
* `sort.Sort(al)` with `Less(i, j) = al[i] < al[j]` rearranges `al` into ascending
  order.  On plain numbers the ascending rearrangement of a list is unique, so any
  sorting function is a faithful model; insertion sort is used.
* `ColourConsildate` is given twice: as a function of list contents, and as
  `ColourConsildateRun` on slices in memory, where the previous list may share cells
  with the receiver that `sort.Sort` reorders.  `ColourConsildateRun_result` relates
  the two for all slices.
-/

namespace ansi

/-- Go: `type Attribute byte`. -/
abbrev Attribute := Nat

/-- Go: `type AttributeList []Attribute`. -/
abbrev AttributeList := List Attribute

/-! ## Attribute codes -/

def Reset : Attribute := 0
def Bold : Attribute := 1
def Faint : Attribute := 2
def Italic : Attribute := 3
def Underline : Attribute := 4
def BlinkSlow : Attribute := 5
def BlinkRapid : Attribute := 6
def ReverseVideo : Attribute := 7
def Concealed : Attribute := 8
def CrossedOut : Attribute := 9

def FgDefault : Attribute := 39
def FgBlack : Attribute := 30
def FgRed : Attribute := 31
def FgGreen : Attribute := 32
def FgYellow : Attribute := 33
def FgBlue : Attribute := 34
def FgMagenta : Attribute := 35
def FgCyan : Attribute := 36
def FgWhite : Attribute := 37

def FgHiBlack : Attribute := 90
def FgHiRed : Attribute := 91
def FgHiGreen : Attribute := 92
def FgHiYellow : Attribute := 93
def FgHiBlue : Attribute := 94
def FgHiMagenta : Attribute := 95
def FgHiCyan : Attribute := 96
def FgHiWhite : Attribute := 97

def BgDefault : Attribute := 49
def BgBlack : Attribute := 40
def BgRed : Attribute := 41
def BgGreen : Attribute := 42
def BgYellow : Attribute := 43
def BgBlue : Attribute := 44
def BgMagenta : Attribute := 45
def BgCyan : Attribute := 46
def BgWhite : Attribute := 47

def BgHiBlack : Attribute := 100
def BgHiRed : Attribute := 101
def BgHiGreen : Attribute := 102
def BgHiYellow : Attribute := 103
def BgHiBlue : Attribute := 104
def BgHiMagenta : Attribute := 105
def BgHiCyan : Attribute := 106
def BgHiWhite : Attribute := 107

/-- The labels of `case FgBlack, FgRed, ..., FgWhite:`. -/
def caseFg : List Attribute :=
  [FgBlack, FgRed, FgGreen, FgYellow, FgBlue, FgMagenta, FgCyan, FgWhite]

/-- The labels of `case FgHiBlack, FgHiRed, ..., FgHiWhite:`. -/
def caseFgHi : List Attribute :=
  [FgHiBlack, FgHiRed, FgHiGreen, FgHiYellow, FgHiBlue, FgHiMagenta, FgHiCyan, FgHiWhite]

/-- The labels of `case BgBlack, BgRed, ..., BgWhite:`. -/
def caseBg : List Attribute :=
  [BgBlack, BgRed, BgGreen, BgYellow, BgBlue, BgMagenta, BgCyan, BgWhite]

/-- The labels of `case BgHiBlack, BgHiRed, ..., BgHiWhite:`. -/
def caseBgHi : List Attribute :=
  [BgHiBlack, BgHiRed, BgHiGreen, BgHiYellow, BgHiBlue, BgHiMagenta, BgHiCyan, BgHiWhite]

/-! ## Serialisation -/

/-- The rendering of `%d` for a byte. -/
def fmtD (v : Attribute) : List Char := Nat.toDigits 10 v

/-- Go: `func (al AttributeList) ANSI() string`.  The loop appends `"%d;"` for each
attribute to `"\x1b["`; then the last byte of the result is cut off and `"m"` is
appended. -/
def ANSI (al : AttributeList) : List Char :=
  let res := al.foldl (fun res v => res ++ (fmtD v ++ ";".toList)) "\x1b[".toList
  res.take (res.length - 1) ++ "m".toList

/-- Go: `func Set(vals ...Attribute) string`. -/
def Set (vals : List Attribute) : List Char :=
  match vals with
  | [] => "\x1b[0m".toList
  | [v0] => "\x1b[".toList ++ fmtD v0 ++ "m".toList
  | [v0, v1] => "\x1b[".toList ++ fmtD v0 ++ ";".toList ++ fmtD v1 ++ "m".toList
  | _ => ANSI vals

/-! ## Colour resolution -/

/-- The three locals of `ColourConsildate`. -/
structure Resolve where
  isBold : Bool
  fg : Attribute
  bg : Attribute
deriving DecidableEq, Repr

/-- The body of the first loop, `for _, v := range prevAtList`. -/
def prevStep (s : Resolve) (v : Attribute) : Resolve :=
  if v = Reset then s
  else if v = Bold then { s with isBold := true }
  else if v ∈ caseFg then { s with fg := v }
  else if v ∈ caseFgHi then { s with isBold := true, fg := v }
  else if v ∈ caseBg then { s with bg := v }
  else if v ∈ caseBgHi then { s with isBold := true, bg := v }
  else s

/-- The body of the second loop, `for _, v := range al`. -/
def curStep (s : Resolve) (v : Attribute) : Resolve :=
  if v = Reset then s
  else if v = Bold then { s with isBold := true }
  else if v ∈ caseFg then
    if s.isBold then { s with fg := (v + (FgHiBlack - FgBlack)) % 256 } else { s with fg := v }
  else if v ∈ caseFgHi then { s with fg := v }
  else if v ∈ caseBg then
    if s.isBold then { s with bg := (v + (BgHiBlack - BgBlack)) % 256 } else { s with bg := v }
  else if v ∈ caseBgHi then { s with bg := v }
  else if v = FgDefault then { s with fg := v }
  else if v = BgDefault then { s with bg := v }
  else s

/-- The effect of `sort.Sort(al)`: `al` in ascending order. -/
def sortSort (al : AttributeList) : AttributeList :=
  al.insertionSort (fun a b => a ≤ b)

/-- Go: `func (al AttributeList) ColourConsildate(prevAtList ...Attribute) (fg, bg Attribute)`,
as a function of the contents of `al` at the call and of the contents the first loop
reads from `prevAtList`.  The receiver is sorted, the previous list is scanned in its
given order, then the sorted receiver is scanned.  When `prevAtList` shares no cell
with `al` the first loop reads what the caller passed; `ColourConsildateRun` below
places the call in memory and covers slices that overlap. -/
def ColourConsildate (al : AttributeList) (prevAtList : List Attribute) :
    Attribute × Attribute :=
  let s0 : Resolve := { isBold := false, fg := FgDefault, bg := BgDefault }
  let al := sortSort al
  let s1 := prevAtList.foldl prevStep s0
  let s2 := al.foldl curStep s1
  (s2.fg, s2.bg)

/-! ## Code-page glyphs -/

/-- Go: `var IBMTable = [...]string{...}`, each entry a one-glyph string. -/
def IBMTable : List (List Char) :=
  ([
    "\u00C7", "\u00FC", "\u00E9", "\u00E2", "\u00E4", "\u00E0", "\u00E5", "\u00E7",
    "\u00EA", "\u00EB", "\u00E8", "\u00EF", "\u00EE", "\u00EC", "\u00C4", "\u00C5",
    "\u00C9", "\u00E6", "\u00C6", "\u00F4", "\u00F6", "\u00F2", "\u00FB", "\u00F9",
    "\u00FF", "\u00D6", "\u00DC", "\u00A2", "\u00A3", "\u00A5", "\u20A7", "\u0192",
    "\u00E1", "\u00ED", "\u00F3", "\u00FA", "\u00F1", "\u00D1", "\u00AA", "\u00BA",
    "\u00BF", "\u2310", "\u00AC", "\u00BD", "\u00BC", "\u00A1", "\u00AB", "\u00BB",
    "\u2591", "\u2592", "\u2593", "\u2502", "\u2524", "\u2561", "\u2562", "\u2556",
    "\u2555", "\u2563", "\u2551", "\u2557", "\u255D", "\u255C", "\u255B", "\u2510",
    "\u2514", "\u2534", "\u252C", "\u251C", "\u2500", "\u253C", "\u255E", "\u255F",
    "\u255A", "\u2554", "\u2569", "\u2566", "\u2560", "\u2550", "\u256C", "\u2567",
    "\u2568", "\u2564", "\u2565", "\u2559", "\u2558", "\u2552", "\u2553", "\u256B",
    "\u256A", "\u2518", "\u250C", "\u2588", "\u2584", "\u258C", "\u2590", "\u2580",
    "\u03B1", "\u00DF", "\u0393", "\u03C0", "\u03A3", "\u03C3", "\u00B5", "\u03C4",
    "\u03A6", "\u0398", "\u03A9", "\u03B4", "\u221E", "\u03C6", "\u03B5", "\u2229",
    "\u2261", "\u00B1", "\u2265", "\u2264", "\u2320", "\u2321", "\u00F7", "\u2248",
    "\u00B0", "\u2219", "\u00B7", "\u221A", "\u207F", "\u00B2", "\u25A0", "\u00A0"]
    : List String).map String.toList

/-- Go: `func IBMExtend(src byte) string`.  `string(src)` is the string of the one
character with code `src`; indexing `IBMTable` out of range is a run-time failure,
modelled as `none`. -/
def IBMExtend (src : Nat) : Option (List Char) :=
  if src < 128 then some [Char.ofNat src]
  else IBMTable[src - 128]?

/-! ## `ColourConsildate` on slices

A Go slice is a view of cells in memory, and two slices may view the same cells:
in `al.ColourConsildate(prev...)` the slice `prev` is handed over as it is, so it
can overlap `al`.  `sort.Sort(al)` reorders the cells `al` views, and the first
loop reads `prevAtList` after that. -/

/-- Memory: the attribute held at each address. -/
abbrev Memory := Nat → Attribute

/-- A slice: the address of its first cell and its length. -/
structure Slice where
  ptr : Nat
  len : Nat
deriving DecidableEq, Repr

/-- The contents of a slice, as `range` visits them. -/
def Slice.read (s : Slice) (mem : Memory) : List Attribute :=
  (List.range s.len).map (fun i => mem (s.ptr + i))

/-- Memory after the cells of a slice have been overwritten with `vals`. -/
def Slice.store (s : Slice) (vals : List Attribute) (mem : Memory) : Memory :=
  fun a => if s.ptr ≤ a ∧ a < s.ptr + s.len then vals.getD (a - s.ptr) (mem a) else mem a

/-- What a call leaves behind: the two results and the memory. -/
structure Outcome where
  fg : Attribute
  bg : Attribute
  mem : Memory

/-- Go: `func (al AttributeList) ColourConsildate(prevAtList ...Attribute) (fg, bg Attribute)`
on slices in memory.  `sort.Sort(al)` sorts the cells of `al` in place; the first loop
then reads `prevAtList` from that memory and the second reads `al`; the closing
`al = AttributeList{fg, bg}` points the callee's own variable at a fresh array and
stores nothing in existing cells. -/
def ColourConsildateRun (mem : Memory) (al prevAtList : Slice) : Outcome :=
  let s0 : Resolve := { isBold := false, fg := FgDefault, bg := BgDefault }
  let mem := al.store (sortSort (al.read mem)) mem
  let s1 := (prevAtList.read mem).foldl prevStep s0
  let s2 := (al.read mem).foldl curStep s1
  { fg := s2.fg, bg := s2.bg, mem := mem }

/-! ## Vocabulary of the specification

The remaining definitions are not taken from the code: they name the notions the
statements below are phrased in. -/

/-- A foreground colour code: standard (30..37) or high-intensity (90..97). -/
def isFgColour (v : Attribute) : Bool :=
  (decide (30 ≤ v) && decide (v ≤ 37)) || (decide (90 ≤ v) && decide (v ≤ 97))

/-- A background colour code: standard (40..47) or high-intensity (100..107). -/
def isBgColour (v : Attribute) : Bool :=
  (decide (40 ≤ v) && decide (v ≤ 47)) || (decide (100 ≤ v) && decide (v ≤ 107))

/-- The last foreground colour code of a list in its given order, `FgDefault` if it
has none. -/
def lastFgColour (l : List Attribute) : Attribute :=
  ((l.filter isFgColour).getLast?).getD FgDefault

/-- The escape sequence the specification describes for a list of attributes: the
byte 27, `[`, the decimal renderings of the attributes in list order separated by `;`,
and `m`. -/
def sgrSequence (al : List Attribute) : List Char :=
  Char.ofNat 27 :: '[' :: (List.intercalate [';'] (al.map fmtD) ++ ['m'])

/-- A code that is neither a colour directive nor `Bold`: `Reset`, the style flags
2..9, and the byte values outside the attribute table. -/
def isInert (v : Attribute) : Bool :=
  decide (v = 0) || (decide (2 ≤ v) && decide (v ≤ 9)) || (decide (10 ≤ v) && decide (v ≤ 29))
    || decide (v = 38) || decide (v = 48) || (decide (50 ≤ v) && decide (v ≤ 89))
    || decide (v = 98) || decide (v = 99) || (decide (108 ≤ v) && decide (v ≤ 255))

/-- A list with every inert code deleted. -/
def dropInert (l : List Attribute) : List Attribute :=
  l.filter (fun v => !isInert v)

/-- The values a resolved foreground can take: `FgDefault`, a standard or a
high-intensity foreground colour. -/
def FgRange (v : Nat) : Prop :=
  v = 39 ∨ (30 ≤ v ∧ v ≤ 37) ∨ (90 ≤ v ∧ v ≤ 97)

/-- The values a resolved background can take: `BgDefault`, a standard or a
high-intensity background colour. -/
def BgRange (v : Nat) : Prop :=
  v = 49 ∨ (40 ≤ v ∧ v ≤ 47) ∨ (100 ≤ v ∧ v ≤ 107)

/-- The last background colour code of a list in its given order, `BgDefault` if it
has none. -/
def lastBgColour (l : List Attribute) : Attribute :=
  ((l.filter isBgColour).getLast?).getD BgDefault

/-- The largest code of a list that lies in `lo..hi`, if there is one. -/
def largestIn (lo hi : Nat) (l : List Attribute) : Option Attribute :=
  (l.filter (fun v => decide (lo ≤ v) && decide (v ≤ hi))).max?

/-- Bold holds when `Bold` occurs in the previous or the current list, or a
high-intensity code of either channel occurs in the previous list. -/
def boldHolds (prev cur : List Attribute) : Bool :=
  decide (Bold ∈ prev) || decide (Bold ∈ cur) ||
    prev.any (fun v => (decide (90 ≤ v) && decide (v ≤ 97)) || (decide (100 ≤ v) && decide (v ≤ 107)))

/-- The closed form of the resolved foreground, by precedence in sorted order. -/
def closedFg (prev cur : List Attribute) : Attribute :=
  match largestIn 90 97 cur with
  | some h => h
  | none =>
    if FgDefault ∈ cur then FgDefault
    else
      match largestIn 30 37 cur with
      | some m => if boldHolds prev cur then m + 60 else m
      | none => lastFgColour prev

/-- The closed form of the resolved background, by precedence in sorted order. -/
def closedBg (prev cur : List Attribute) : Attribute :=
  match largestIn 100 107 cur with
  | some h => h
  | none =>
    if BgDefault ∈ cur then BgDefault
    else
      match largestIn 40 47 cur with
      | some m => if boldHolds prev cur then m + 60 else m
      | none => lastBgColour prev

/-- Two slices share no cell. -/
def Slice.apart (s t : Slice) : Bool :=
  decide (s.len = 0 ∨ t.len = 0 ∨ s.ptr + s.len ≤ t.ptr ∨ t.ptr + t.len ≤ s.ptr)

/-- A memory holding the given cells from address 0 on, and `Reset` elsewhere. -/
def memOf (cells : List Attribute) : Memory :=
  fun a => cells.getD a Reset

/-! ## The case labels as ranges -/

theorem mem_caseFg {v : Nat} : v ∈ caseFg ↔ 30 ≤ v ∧ v ≤ 37 := by
  simp only [caseFg, FgBlack, FgRed, FgGreen, FgYellow, FgBlue, FgMagenta, FgCyan, FgWhite,
    List.mem_cons, List.mem_singleton, List.mem_nil_iff, or_false, Attribute]
  omega

theorem mem_caseFgHi {v : Nat} : v ∈ caseFgHi ↔ 90 ≤ v ∧ v ≤ 97 := by
  simp only [caseFgHi, FgHiBlack, FgHiRed, FgHiGreen, FgHiYellow, FgHiBlue, FgHiMagenta,
    FgHiCyan, FgHiWhite, List.mem_cons, List.mem_singleton, List.mem_nil_iff, or_false,
    Attribute]
  omega

theorem mem_caseBg {v : Nat} : v ∈ caseBg ↔ 40 ≤ v ∧ v ≤ 47 := by
  simp only [caseBg, BgBlack, BgRed, BgGreen, BgYellow, BgBlue, BgMagenta, BgCyan, BgWhite,
    List.mem_cons, List.mem_singleton, List.mem_nil_iff, or_false, Attribute]
  omega

theorem mem_caseBgHi {v : Nat} : v ∈ caseBgHi ↔ 100 ≤ v ∧ v ≤ 107 := by
  simp only [caseBgHi, BgHiBlack, BgHiRed, BgHiGreen, BgHiYellow, BgHiBlue, BgHiMagenta,
    BgHiCyan, BgHiWhite, List.mem_cons, List.mem_singleton, List.mem_nil_iff, or_false,
    Attribute]
  omega

/-! ## The two loop bodies, case by case

Both bodies are restated over numeric ranges, which is the form every later proof
works with. -/

theorem prevStep_eq (s : Resolve) (v : Nat) :
    prevStep s v =
      if v = 0 then s
      else if v = 1 then { s with isBold := true }
      else if 30 ≤ v ∧ v ≤ 37 then { s with fg := v }
      else if 90 ≤ v ∧ v ≤ 97 then { s with isBold := true, fg := v }
      else if 40 ≤ v ∧ v ≤ 47 then { s with bg := v }
      else if 100 ≤ v ∧ v ≤ 107 then { s with isBold := true, bg := v }
      else s := by
  simp only [prevStep, mem_caseFg, mem_caseFgHi, mem_caseBg, mem_caseBgHi, Reset, Bold]

theorem curStep_eq (s : Resolve) (v : Nat) :
    curStep s v =
      if v = 0 then s
      else if v = 1 then { s with isBold := true }
      else if 30 ≤ v ∧ v ≤ 37 then
        if s.isBold then { s with fg := (v + 60) % 256 } else { s with fg := v }
      else if 90 ≤ v ∧ v ≤ 97 then { s with fg := v }
      else if 40 ≤ v ∧ v ≤ 47 then
        if s.isBold then { s with bg := (v + 60) % 256 } else { s with bg := v }
      else if 100 ≤ v ∧ v ≤ 107 then { s with bg := v }
      else if v = 39 then { s with fg := v }
      else if v = 49 then { s with bg := v }
      else s := by
  simp only [curStep, mem_caseFg, mem_caseFgHi, mem_caseBg, mem_caseBgHi, Reset, Bold,
    FgDefault, BgDefault, FgHiBlack, FgBlack, BgHiBlack, BgBlack]

/-- A standard foreground colour in the second loop: promoted exactly when bold is set. -/
theorem curStep_fg_std (s : Resolve) {v : Nat} (h1 : 30 ≤ v) (h2 : v ≤ 37) :
    (curStep s v).fg = if s.isBold then v + 60 else v := by
  rw [curStep_eq]
  have hw : (v + 60) % 256 = v + 60 := by omega
  rw [if_neg (by omega), if_neg (by omega), if_pos ⟨h1, h2⟩, hw]
  split <;> rfl

/-- A standard background colour in the second loop: promoted exactly when bold is set. -/
theorem curStep_bg_std (s : Resolve) {v : Nat} (h1 : 40 ≤ v) (h2 : v ≤ 47) :
    (curStep s v).bg = if s.isBold then v + 60 else v := by
  rw [curStep_eq]
  have hw : (v + 60) % 256 = v + 60 := by omega
  rw [if_neg (by omega), if_neg (by omega), if_neg (by omega), if_neg (by omega),
    if_pos ⟨h1, h2⟩, hw]
  split <;> rfl

/-- A high-intensity foreground colour or `FgDefault` in the second loop is stored as is. -/
theorem curStep_fg_set (s : Resolve) {v : Nat} (h : (90 ≤ v ∧ v ≤ 97) ∨ v = 39) :
    (curStep s v).fg = v := by
  rw [curStep_eq]
  split_ifs <;> first | rfl | omega

/-- A high-intensity background colour or `BgDefault` in the second loop is stored as is. -/
theorem curStep_bg_set (s : Resolve) {v : Nat} (h : (100 ≤ v ∧ v ≤ 107) ∨ v = 49) :
    (curStep s v).bg = v := by
  rw [curStep_eq]
  split_ifs <;> first | rfl | omega

/-- Any other code leaves `fg` alone in the second loop. -/
theorem curStep_fg_keep (s : Resolve) {v : Nat} (h1 : ¬(30 ≤ v ∧ v ≤ 37)) (h2 : v ≠ 39)
    (h3 : ¬(90 ≤ v ∧ v ≤ 97)) : (curStep s v).fg = s.fg := by
  rw [curStep_eq]
  split_ifs <;> rfl

/-- Any other code leaves `bg` alone in the second loop. -/
theorem curStep_bg_keep (s : Resolve) {v : Nat} (h1 : ¬(40 ≤ v ∧ v ≤ 47)) (h2 : v ≠ 49)
    (h3 : ¬(100 ≤ v ∧ v ≤ 107)) : (curStep s v).bg = s.bg := by
  rw [curStep_eq]
  split_ifs <;> rfl

/-- Bold is set by `Bold` and never cleared in the second loop. -/
theorem curStep_isBold (s : Resolve) (v : Nat) :
    (curStep s v).isBold = (s.isBold || decide (v = 1)) := by
  rw [curStep_eq]
  split_ifs <;> simp_all

/-- In the first loop `fg` is overwritten by a foreground colour and otherwise kept. -/
theorem prevStep_fg (s : Resolve) (v : Nat) :
    (prevStep s v).fg = if (30 ≤ v ∧ v ≤ 37) ∨ (90 ≤ v ∧ v ≤ 97) then v else s.fg := by
  rw [prevStep_eq]
  split_ifs <;> first | rfl | omega

/-- In the first loop `bg` is overwritten by a background colour and otherwise kept. -/
theorem prevStep_bg (s : Resolve) (v : Nat) :
    (prevStep s v).bg = if (40 ≤ v ∧ v ≤ 47) ∨ (100 ≤ v ∧ v ≤ 107) then v else s.bg := by
  rw [prevStep_eq]
  split_ifs <;> first | rfl | omega

/-! ## The two loops -/

/-- The first loop leaves in `fg` the last foreground colour it met, if any. -/
theorem foldl_prevStep_fg (l : List Nat) (s : Resolve) :
    (l.foldl prevStep s).fg = ((l.filter isFgColour).getLast?).getD s.fg := by
  induction l using List.reverseRecOn with
  | nil => rfl
  | append_singleton l v ih =>
    rw [List.foldl_append, List.foldl_cons, List.foldl_nil, prevStep_fg, List.filter_append]
    by_cases hv : (30 ≤ v ∧ v ≤ 37) ∨ (90 ≤ v ∧ v ≤ 97)
    · have hc : isFgColour v = true := by simpa [isFgColour] using hv
      simp [hv, hc, List.filter_cons]
    · have hc : isFgColour v = false := by
        simpa [isFgColour] using hv
      simp [hv, hc, List.filter_cons, ih]

/-- The second loop leaves `fg` alone when it meets no foreground directive. -/
theorem foldl_curStep_fg_keep (l : List Nat) (s : Resolve)
    (h : ∀ v ∈ l, ¬(30 ≤ v ∧ v ≤ 37) ∧ v ≠ 39 ∧ ¬(90 ≤ v ∧ v ≤ 97)) :
    (l.foldl curStep s).fg = s.fg := by
  induction l generalizing s with
  | nil => rfl
  | cons v l ih =>
    rw [List.foldl_cons, ih _ (fun w hw => h w (List.mem_cons_of_mem _ hw))]
    have hv := h v (List.mem_cons_self _ _)
    exact curStep_fg_keep s hv.1 hv.2.1 hv.2.2

/-- The second loop leaves `bg` alone when it meets no background directive. -/
theorem foldl_curStep_bg_keep (l : List Nat) (s : Resolve)
    (h : ∀ v ∈ l, ¬(40 ≤ v ∧ v ≤ 47) ∧ v ≠ 49 ∧ ¬(100 ≤ v ∧ v ≤ 107)) :
    (l.foldl curStep s).bg = s.bg := by
  induction l generalizing s with
  | nil => rfl
  | cons v l ih =>
    rw [List.foldl_cons, ih _ (fun w hw => h w (List.mem_cons_of_mem _ hw))]
    have hv := h v (List.mem_cons_self _ _)
    exact curStep_bg_keep s hv.1 hv.2.1 hv.2.2

/-- The first loop leaves `fg` alone when it meets no foreground colour. -/
theorem foldl_prevStep_fg_keep (l : List Nat) (s : Resolve)
    (h : ∀ v ∈ l, ¬(30 ≤ v ∧ v ≤ 37) ∧ ¬(90 ≤ v ∧ v ≤ 97)) :
    (l.foldl prevStep s).fg = s.fg := by
  induction l generalizing s with
  | nil => rfl
  | cons v l ih =>
    rw [List.foldl_cons, ih _ (fun w hw => h w (List.mem_cons_of_mem _ hw)), prevStep_fg]
    have hv := h v (List.mem_cons_self _ _)
    rw [if_neg (by omega)]

/-- The first loop leaves `bg` alone when it meets no background colour. -/
theorem foldl_prevStep_bg_keep (l : List Nat) (s : Resolve)
    (h : ∀ v ∈ l, ¬(40 ≤ v ∧ v ≤ 47) ∧ ¬(100 ≤ v ∧ v ≤ 107)) :
    (l.foldl prevStep s).bg = s.bg := by
  induction l generalizing s with
  | nil => rfl
  | cons v l ih =>
    rw [List.foldl_cons, ih _ (fun w hw => h w (List.mem_cons_of_mem _ hw)), prevStep_bg]
    have hv := h v (List.mem_cons_self _ _)
    rw [if_neg (by omega)]

/-! ## Sorting -/

theorem sortSort_sorted (l : List Nat) : (sortSort l).Sorted (fun a b => a ≤ b) :=
  List.sorted_insertionSort _ l

theorem sortSort_perm (l : List Nat) : (sortSort l).Perm l :=
  List.perm_insertionSort _ l

theorem mem_sortSort {l : List Nat} {v : Nat} : v ∈ sortSort l ↔ v ∈ l :=
  (sortSort_perm l).mem_iff

/-- Two arrangements of the same attributes sort to the same list. -/
theorem sortSort_eq_of_perm {l₁ l₂ : List Nat} (h : l₁.Perm l₂) : sortSort l₁ = sortSort l₂ :=
  List.eq_of_perm_of_sorted (((sortSort_perm l₁).trans h).trans (sortSort_perm l₂).symm)
    (sortSort_sorted l₁) (sortSort_sorted l₂)

/-- Sorting commutes with deleting elements. -/
theorem sortSort_filter (p : Nat → Bool) (l : List Nat) :
    sortSort (l.filter p) = (sortSort l).filter p :=
  List.eq_of_perm_of_sorted
    ((sortSort_perm _).trans ((sortSort_perm l).filter p).symm)
    (sortSort_sorted _) ((sortSort_sorted l).filter p)

/-- In an ascending list, a high-intensity foreground code that is the only one of its
range is what the second loop leaves in `fg`. -/
theorem foldl_curStep_fg_hi (l : List Nat) (s : Resolve) (h : Nat) (h1 : 90 ≤ h) (h2 : h ≤ 97)
    (hs : l.Sorted (fun a b => a ≤ b)) (hmem : h ∈ l)
    (honly : ∀ v ∈ l, 90 ≤ v → v ≤ 97 → v = h) : (l.foldl curStep s).fg = h := by
  induction l using List.reverseRecOn with
  | nil => simp at hmem
  | append_singleton l v ih =>
    rw [List.foldl_append, List.foldl_cons, List.foldl_nil]
    have hsorted := List.pairwise_append.1 hs
    by_cases hv : 90 ≤ v ∧ v ≤ 97
    · have : v = h := honly v (by simp) hv.1 hv.2
      rw [curStep_fg_set _ (Or.inl hv), this]
    · have hne : v ≠ h := fun e => hv (e ▸ ⟨h1, h2⟩)
      have hl : h ∈ l := by
        rcases List.mem_append.1 hmem with hm | hm
        · exact hm
        · exact absurd (List.mem_singleton.1 hm).symm hne
      have hle : h ≤ v := hsorted.2.2 h hl v (by simp)
      rw [curStep_fg_keep _ (by omega) (by omega) hv]
      exact ih hsorted.1 hl (fun w hw => honly w (List.mem_append_left _ hw))

/-- In an ascending list, a high-intensity background code that is the only one of its
range is what the second loop leaves in `bg`. -/
theorem foldl_curStep_bg_hi (l : List Nat) (s : Resolve) (h : Nat) (h1 : 100 ≤ h)
    (h2 : h ≤ 107) (hs : l.Sorted (fun a b => a ≤ b)) (hmem : h ∈ l)
    (honly : ∀ v ∈ l, 100 ≤ v → v ≤ 107 → v = h) : (l.foldl curStep s).bg = h := by
  induction l using List.reverseRecOn with
  | nil => simp at hmem
  | append_singleton l v ih =>
    rw [List.foldl_append, List.foldl_cons, List.foldl_nil]
    have hsorted := List.pairwise_append.1 hs
    by_cases hv : 100 ≤ v ∧ v ≤ 107
    · have : v = h := honly v (by simp) hv.1 hv.2
      rw [curStep_bg_set _ (Or.inl hv), this]
    · have hne : v ≠ h := fun e => hv (e ▸ ⟨h1, h2⟩)
      have hl : h ∈ l := by
        rcases List.mem_append.1 hmem with hm | hm
        · exact hm
        · exact absurd (List.mem_singleton.1 hm).symm hne
      have hle : h ≤ v := hsorted.2.2 h hl v (by simp)
      rw [curStep_bg_keep _ (by omega) (by omega) hv]
      exact ih hsorted.1 hl (fun w hw => honly w (List.mem_append_left _ hw))

/-- In an ascending list that holds `FgDefault` and no high-intensity foreground code,
the second loop leaves `FgDefault` in `fg`. -/
theorem foldl_curStep_fg_default (l : List Nat) (s : Resolve)
    (hs : l.Sorted (fun a b => a ≤ b)) (hmem : 39 ∈ l)
    (hno : ∀ v ∈ l, ¬(90 ≤ v ∧ v ≤ 97)) : (l.foldl curStep s).fg = 39 := by
  induction l using List.reverseRecOn with
  | nil => simp at hmem
  | append_singleton l v ih =>
    rw [List.foldl_append, List.foldl_cons, List.foldl_nil]
    have hsorted := List.pairwise_append.1 hs
    by_cases hv : v = 39
    · rw [curStep_fg_set _ (Or.inr hv), hv]
    · have hl : 39 ∈ l := by
        rcases List.mem_append.1 hmem with hm | hm
        · exact hm
        · exact absurd (List.mem_singleton.1 hm).symm hv
      have hle : 39 ≤ v := hsorted.2.2 39 hl v (by simp)
      rw [curStep_fg_keep _ (by omega) hv (hno v (by simp))]
      exact ih hsorted.1 hl (fun w hw => hno w (List.mem_append_left _ hw))

/-! ## Bold promotion inside the current list -/

/-- C1: for every previous list, `AttributeList{Bold, c}.ColourConsildate(previous...)`
returns `fg = c + 60` for a standard foreground colour `c` (30..37), and `bg = c + 60`
for a standard background colour `c` (40..47). -/
theorem ColourConsildate_bold_promotes (prev : List Attribute) (c : Attribute) :
    (30 ≤ c ∧ c ≤ 37 → (ColourConsildate [Bold, c] prev).1 = c + 60) ∧
    (40 ≤ c ∧ c ≤ 47 → (ColourConsildate [Bold, c] prev).2 = c + 60) := by
  have hsort : ∀ c : Nat, 1 ≤ c → sortSort [Bold, c] = [1, c] := by
    intro c hc
    simp [sortSort, Bold, List.insertionSort, List.orderedInsert, hc]
  have hb : ∀ s : Resolve, (curStep s 1).isBold = true := by
    intro s
    rw [curStep_isBold]
    simp
  constructor
  · rintro ⟨h1, h2⟩
    simp only [ColourConsildate]
    rw [hsort c (Nat.le_trans (by decide) h1), List.foldl_cons, List.foldl_cons, List.foldl_nil,
      curStep_fg_std _ h1 h2, hb, if_pos rfl]
  · rintro ⟨h1, h2⟩
    simp only [ColourConsildate]
    rw [hsort c (Nat.le_trans (by decide) h1), List.foldl_cons, List.foldl_cons, List.foldl_nil,
      curStep_bg_std _ h1 h2, hb, if_pos rfl]

/-- C1 at `previous = [FgBlue, Faint]`: `[Bold, FgRed]` gives `fg = FgHiRed` and
`[Bold, BgGreen]` gives `bg = BgHiGreen`. -/
theorem ColourConsildate_bold_promotes_witness :
    (ColourConsildate [Bold, FgRed] [FgBlue, Faint]).1 = FgHiRed ∧
    (ColourConsildate [Bold, BgGreen] [FgBlue, Faint]).2 = BgHiGreen :=
  ⟨(ColourConsildate_bold_promotes [FgBlue, Faint] FgRed).1 (by decide),
   (ColourConsildate_bold_promotes [FgBlue, Faint] BgGreen).2 (by decide)⟩

/-! ## What the previous list contributes -/

/-- C3: when the current list holds no foreground directive (no code in 30..37, 39 or
90..97), the returned `fg` is the last foreground colour of the previous list in its
given order, unpromoted even if `Bold` is in the current list, and `FgDefault` when
the previous list has none; `previous = [FgBlue]`, `current = [Bold]` gives (34, 49). -/
theorem ColourConsildate_fg_from_previous (prev cur : List Attribute)
    (h : ∀ v ∈ cur, ¬(30 ≤ v ∧ v ≤ 37) ∧ v ≠ 39 ∧ ¬(90 ≤ v ∧ v ≤ 97)) :
    (ColourConsildate cur prev).1 = lastFgColour prev ∧
    ColourConsildate [Bold] [FgBlue] = (34, 49) := by
  refine ⟨?_, by decide⟩
  simp only [ColourConsildate]
  rw [foldl_curStep_fg_keep _ _ (fun v hv => h v (mem_sortSort.1 hv)), foldl_prevStep_fg]
  rfl

/-- C3 at `previous = [FgHiGreen, BgRed, FgBlue, Bold]`, `current = [Bold, BgCyan]`:
the last foreground colour of the previous list, 34, is returned as it stands. -/
theorem ColourConsildate_fg_from_previous_witness :
    (ColourConsildate [Bold, BgCyan] [FgHiGreen, BgRed, FgBlue, Bold]).1 = 34 :=
  (ColourConsildate_fg_from_previous [FgHiGreen, BgRed, FgBlue, Bold] [Bold, BgCyan]
    (by decide)).1

/-! ## `FgDefault` and the high-intensity codes in the current list -/

/-- C4, as stated, fails: the current list `[FgDefault, FgHiRed]` contains `FgDefault`,
yet after sorting `FgHiRed` is scanned last and `fg = 91` is returned. -/
theorem ColourConsildate_default_overridden :
    FgDefault ∈ [FgDefault, FgHiRed] ∧ (ColourConsildate [FgDefault, FgHiRed] []).1 = 91 ∧
    (ColourConsildate [FgDefault, FgHiRed] []).1 ≠ 39 := by
  decide

/-- C4, amended: for every previous list and every current list that contains
`FgDefault` (39) and no high-intensity foreground code (90..97), the returned `fg` is
39, whatever the bold state and the other codes of either list. -/
theorem ColourConsildate_fg_default (prev cur : List Attribute) (hmem : FgDefault ∈ cur)
    (hno : ∀ v ∈ cur, ¬(90 ≤ v ∧ v ≤ 97)) : (ColourConsildate cur prev).1 = 39 := by
  simp only [ColourConsildate]
  exact foldl_curStep_fg_default _ _ (sortSort_sorted cur) (mem_sortSort.2 hmem)
    (fun v hv => hno v (mem_sortSort.1 hv))

/-- C4 amended, at `previous = [Bold, FgHiCyan]`, `current = [FgDefault, Bold, FgRed]`. -/
theorem ColourConsildate_fg_default_witness :
    (ColourConsildate [FgDefault, Bold, FgRed] [Bold, FgHiCyan]).1 = 39 :=
  ColourConsildate_fg_default [Bold, FgHiCyan] [FgDefault, Bold, FgRed] (by decide) (by decide)

/-- C5: a high-intensity colour in the current list is returned as it stands: if `h` is
in the current list and is its only code in 90..97 then `fg = h`, and if it is its only
code in 100..107 then `bg = h`, for every previous list and whether or not `Bold` is in
the current list. -/
theorem ColourConsildate_hi_not_promoted (prev cur : List Attribute) (h : Attribute)
    (hmem : h ∈ cur) :
    (90 ≤ h ∧ h ≤ 97 → (∀ v ∈ cur, 90 ≤ v → v ≤ 97 → v = h) →
      (ColourConsildate cur prev).1 = h) ∧
    (100 ≤ h ∧ h ≤ 107 → (∀ v ∈ cur, 100 ≤ v → v ≤ 107 → v = h) →
      (ColourConsildate cur prev).2 = h) := by
  constructor
  · rintro ⟨h1, h2⟩ honly
    simp only [ColourConsildate]
    exact foldl_curStep_fg_hi _ _ h h1 h2 (sortSort_sorted cur) (mem_sortSort.2 hmem)
      (fun v hv => honly v (mem_sortSort.1 hv))
  · rintro ⟨h1, h2⟩ honly
    simp only [ColourConsildate]
    exact foldl_curStep_bg_hi _ _ h h1 h2 (sortSort_sorted cur) (mem_sortSort.2 hmem)
      (fun v hv => honly v (mem_sortSort.1 hv))

/-- C5 at `previous = [Bold]`: `FgHiGreen` next to `Bold`, `FgRed` and `FgDefault`
gives `fg = 92`, and `BgHiBlue` next to `Bold` and `BgWhite` gives `bg = 104`. -/
theorem ColourConsildate_hi_not_promoted_witness :
    (ColourConsildate [FgHiGreen, Bold, FgRed, FgDefault] [Bold]).1 = 92 ∧
    (ColourConsildate [BgWhite, BgHiBlue, Bold] [Bold]).2 = 104 :=
  ⟨(ColourConsildate_hi_not_promoted [Bold] [FgHiGreen, Bold, FgRed, FgDefault] 92
      (by decide)).1 (by decide) (by decide),
   (ColourConsildate_hi_not_promoted [Bold] [BgWhite, BgHiBlue, Bold] 104
      (by decide)).2 (by decide) (by decide)⟩

/-! ## Defaults -/

theorem isFgColour_iff (v : Nat) :
    isFgColour v = true ↔ (30 ≤ v ∧ v ≤ 37) ∨ (90 ≤ v ∧ v ≤ 97) := by
  simp [isFgColour]

theorem isBgColour_iff (v : Nat) :
    isBgColour v = true ↔ (40 ≤ v ∧ v ≤ 47) ∨ (100 ≤ v ∧ v ≤ 107) := by
  simp [isBgColour]

/-- The second loop keeps `fg = FgDefault` as long as it meets no foreground colour. -/
theorem foldl_curStep_fg_stays_default (l : List Nat) (s : Resolve) (hs : s.fg = 39)
    (h : ∀ v ∈ l, ¬((30 ≤ v ∧ v ≤ 37) ∨ (90 ≤ v ∧ v ≤ 97))) :
    (l.foldl curStep s).fg = 39 := by
  induction l generalizing s with
  | nil => exact hs
  | cons v l ih =>
    rw [List.foldl_cons]
    refine ih _ ?_ (fun w hw => h w (List.mem_cons_of_mem _ hw))
    have hv := h v (List.mem_cons_self _ _)
    by_cases h39 : v = 39
    · rw [curStep_fg_set _ (Or.inr h39), h39]
    · rw [curStep_fg_keep _ (by omega) h39 (by omega), hs]

/-- The second loop keeps `bg = BgDefault` as long as it meets no background colour. -/
theorem foldl_curStep_bg_stays_default (l : List Nat) (s : Resolve) (hs : s.bg = 49)
    (h : ∀ v ∈ l, ¬((40 ≤ v ∧ v ≤ 47) ∨ (100 ≤ v ∧ v ≤ 107))) :
    (l.foldl curStep s).bg = 49 := by
  induction l generalizing s with
  | nil => exact hs
  | cons v l ih =>
    rw [List.foldl_cons]
    refine ih _ ?_ (fun w hw => h w (List.mem_cons_of_mem _ hw))
    have hv := h v (List.mem_cons_self _ _)
    by_cases h49 : v = 49
    · rw [curStep_bg_set _ (Or.inr h49), h49]
    · rw [curStep_bg_keep _ (by omega) h49 (by omega), hs]

/-- C6: if no foreground colour code (30..37, 90..97) occurs in the previous or the
current list then `fg = FgDefault`; if no background colour code (40..47, 100..107)
occurs in either then `bg = BgDefault`; two empty lists give (39, 49). -/
theorem ColourConsildate_defaults (prev cur : List Attribute) :
    ((∀ v ∈ prev ++ cur, isFgColour v = false) → (ColourConsildate cur prev).1 = FgDefault) ∧
    ((∀ v ∈ prev ++ cur, isBgColour v = false) → (ColourConsildate cur prev).2 = BgDefault) ∧
    ColourConsildate [] [] = (39, 49) := by
  refine ⟨?_, ?_, by decide⟩
  · intro h
    have hr : ∀ v ∈ prev ++ cur, ¬((30 ≤ v ∧ v ≤ 37) ∨ (90 ≤ v ∧ v ≤ 97)) := by
      intro v hv hc
      have := h v hv
      rw [(isFgColour_iff v).2 hc] at this
      exact Bool.noConfusion this
    simp only [ColourConsildate]
    refine foldl_curStep_fg_stays_default _ _ ?_
      (fun v hv => hr v (List.mem_append_right _ (mem_sortSort.1 hv)))
    rw [foldl_prevStep_fg_keep _ _ (fun v hv => ?_)]
    · rfl
    · have := hr v (List.mem_append_left _ hv)
      exact ⟨fun hc => this (Or.inl hc), fun hc => this (Or.inr hc)⟩
  · intro h
    have hr : ∀ v ∈ prev ++ cur, ¬((40 ≤ v ∧ v ≤ 47) ∨ (100 ≤ v ∧ v ≤ 107)) := by
      intro v hv hc
      have := h v hv
      rw [(isBgColour_iff v).2 hc] at this
      exact Bool.noConfusion this
    simp only [ColourConsildate]
    refine foldl_curStep_bg_stays_default _ _ ?_
      (fun v hv => hr v (List.mem_append_right _ (mem_sortSort.1 hv)))
    rw [foldl_prevStep_bg_keep _ _ (fun v hv => ?_)]
    · rfl
    · have := hr v (List.mem_append_left _ hv)
      exact ⟨fun hc => this (Or.inl hc), fun hc => this (Or.inr hc)⟩

/-- C6 at `previous = [Bold, BgRed, FgDefault]`, `current = [Underline, BgHiBlue, FgDefault]`
for the foreground, and at `previous = [FgRed, BgDefault]`, `current = [Bold, FgBlue]`
for the background. -/
theorem ColourConsildate_defaults_witness :
    (ColourConsildate [Underline, BgHiBlue, FgDefault] [Bold, BgRed, FgDefault]).1 = 39 ∧
    (ColourConsildate [Bold, FgBlue] [FgRed, BgDefault]).2 = 49 :=
  ⟨(ColourConsildate_defaults [Bold, BgRed, FgDefault] [Underline, BgHiBlue, FgDefault]).1
      (by decide),
   (ColourConsildate_defaults [FgRed, BgDefault] [Bold, FgBlue]).2.1 (by decide)⟩

/-! ## Serialisation -/

/-- The loop of `ANSI`: the accumulator ends as the initial string followed by every
`"%d;"` chunk. -/
theorem ANSI_loop (l : List Nat) (init : List Char) :
    l.foldl (fun res v => res ++ (fmtD v ++ ";".toList)) init =
      init ++ (l.map (fun v => fmtD v ++ [';'])).flatten := by
  induction l generalizing init with
  | nil => simp
  | cons v l ih =>
    rw [List.foldl_cons, ih]
    simp [List.append_assoc]

/-- Chunks that each end in `;` are the `;`-separated renderings plus one last `;`. -/
theorem flatten_chunks (v : Nat) (l : List Nat) :
    ((v :: l).map (fun v => fmtD v ++ [';'])).flatten =
      List.intercalate [';'] ((v :: l).map fmtD) ++ [';'] := by
  induction l generalizing v with
  | nil => simp [List.intercalate]
  | cons w l ih =>
    have := ih w
    simp only [List.map_cons, List.flatten_cons] at this ⊢
    rw [this]
    simp [List.intercalate, List.intersperse, List.append_assoc]

/-- On a non-empty list `ANSI` produces the escape sequence of the specification. -/
theorem ANSI_cons (v : Nat) (l : List Nat) : ANSI (v :: l) = sgrSequence (v :: l) := by
  simp only [ANSI, ANSI_loop, flatten_chunks]
  have hlen : ∀ (a b : List Char) (c : Char),
      (a ++ (b ++ [c])).take ((a ++ (b ++ [c])).length - 1) = a ++ b := by
    intro a b c
    rw [← List.append_assoc, ← List.dropLast_eq_take, List.dropLast_concat]
  rw [hlen]
  rfl

/-- C7, evaluated: on the empty list `ANSI` cuts the `[` off `"\x1b["` and returns the
two bytes `ESC m`, not the four bytes `ESC [ 0 m`. -/
theorem ANSI_nil :
    ANSI [] = "\x1bm".toList ∧ (ANSI []).length = 2 ∧ ANSI [] ≠ "\x1b[0m".toList := by
  decide

/-- C8: for every non-empty attribute list `ANSI` returns the byte 27, `[`, the decimal
renderings of the attributes in list order separated by `;` with no trailing `;`, and
`m`, with no restriction on the values; `[Bold, FgRed]` gives `"\x1b[1;31m"`. -/
theorem ANSI_nonempty (al : List Attribute) (h : al ≠ []) :
    ANSI al = sgrSequence al ∧ ANSI [Bold, FgRed] = "\x1b[1;31m".toList := by
  refine ⟨?_, by decide⟩
  cases al with
  | nil => exact absurd rfl h
  | cons v l => exact ANSI_cons v l

/-- C8 at `[Bold, FgRed, 255]`. -/
theorem ANSI_nonempty_witness : ANSI [Bold, FgRed, 255] = "\x1b[1;31;255m".toList :=
  ((ANSI_nonempty [Bold, FgRed, 255] (by decide)).1).trans (by decide)

/-- C9, evaluated: `Set` and `ANSI` agree on every non-empty list, and differ on the
empty one, where `Set` returns `"\x1b[0m"` and `ANSI` returns `"\x1bm"`. -/
theorem Set_vs_ANSI :
    (∀ (v : Attribute) (vs : List Attribute), Set (v :: vs) = ANSI (v :: vs)) ∧
    Set [] = "\x1b[0m".toList ∧ ANSI [] = "\x1bm".toList ∧ Set [] ≠ ANSI [] := by
  refine ⟨?_, by decide, by decide, by decide⟩
  intro v vs
  match vs with
  | [] => rw [ANSI_cons]; simp [Set, sgrSequence, List.intercalate, List.intersperse]
  | [w] => rw [ANSI_cons]; simp [Set, sgrSequence, List.intercalate, List.intersperse]
  | _ :: _ :: _ => rfl

/-! ## Inert codes -/

theorem isInert_iff (v : Nat) :
    isInert v = true ↔
      v = 0 ∨ (2 ≤ v ∧ v ≤ 9) ∨ (10 ≤ v ∧ v ≤ 29) ∨ v = 38 ∨ v = 48 ∨ (50 ≤ v ∧ v ≤ 89) ∨
        v = 98 ∨ v = 99 ∨ (108 ≤ v ∧ v ≤ 255) := by
  simp [isInert, or_assoc]

/-- An inert code changes nothing in the first loop. -/
theorem prevStep_inert (s : Resolve) (v : Nat) (h : isInert v = true) : prevStep s v = s := by
  have hv := (isInert_iff v).1 h
  rw [prevStep_eq]
  split_ifs <;> first | rfl | omega

/-- An inert code changes nothing in the second loop. -/
theorem curStep_inert (s : Resolve) (v : Nat) (h : isInert v = true) : curStep s v = s := by
  have hv := (isInert_iff v).1 h
  rw [curStep_eq]
  split_ifs <;> first | rfl | omega

/-- A loop is unaffected by deleting the elements on which its body does nothing. -/
theorem foldl_dropInert (f : Resolve → Nat → Resolve)
    (hf : ∀ s v, isInert v = true → f s v = s) (l : List Nat) (s : Resolve) :
    (dropInert l).foldl f s = l.foldl f s := by
  induction l generalizing s with
  | nil => rfl
  | cons v l ih =>
    cases hv : isInert v with
    | true =>
      have hd : dropInert (v :: l) = dropInert l := by simp [dropInert, hv]
      rw [hd, List.foldl_cons, hf s v hv, ih]
    | false =>
      have hd : dropInert (v :: l) = v :: dropInert l := by simp [dropInert, hv]
      rw [hd, List.foldl_cons, List.foldl_cons, ih]

/-- Sorting the current list after deleting its inert codes, or before, is the same. -/
theorem sortSort_dropInert (l : List Nat) : sortSort (dropInert l) = dropInert (sortSort l) :=
  sortSort_filter _ l

/-- C10: deleting every occurrence of `Reset`, of the style flags 2..9 and of the values
outside the attribute table from the previous list, from the current list, or from
both, leaves the resolved pair unchanged; the resolver is defined on such values, e.g.
on lists made of them only, where it returns the defaults. -/
theorem ColourConsildate_dropInert (prev cur : List Attribute) :
    ColourConsildate (dropInert cur) (dropInert prev) = ColourConsildate cur prev ∧
    ColourConsildate (dropInert cur) prev = ColourConsildate cur prev ∧
    ColourConsildate cur (dropInert prev) = ColourConsildate cur prev ∧
    ColourConsildate [255, 38, Reset, ReverseVideo, 10] [200, 48, 99, Faint] = (39, 49) := by
  have hcur : ∀ s : Resolve,
      (sortSort (dropInert cur)).foldl curStep s = (sortSort cur).foldl curStep s := by
    intro s
    rw [sortSort_dropInert, foldl_dropInert curStep curStep_inert]
  have hprev : ∀ s : Resolve, (dropInert prev).foldl prevStep s = prev.foldl prevStep s :=
    foldl_dropInert prevStep prevStep_inert prev
  refine ⟨?_, ?_, ?_, by decide⟩
  · simp only [ColourConsildate, hcur, hprev]
  · simp only [ColourConsildate, hcur]
  · simp only [ColourConsildate, hprev]

/-! ## The defaults in the previous list -/

/-- `FgDefault` and `BgDefault` change nothing in the first loop. -/
theorem prevStep_default (s : Resolve) (v : Nat) (h : v = 39 ∨ v = 49) : prevStep s v = s := by
  rw [prevStep_eq]
  split_ifs <;> first | rfl | omega

/-- A loop is unaffected by deleting the elements on which its body does nothing. -/
theorem foldl_filter_noop (f : Resolve → Nat → Resolve) (p : Nat → Bool)
    (hf : ∀ s v, p v = false → f s v = s) (l : List Nat) (s : Resolve) :
    (l.filter p).foldl f s = l.foldl f s := by
  induction l generalizing s with
  | nil => rfl
  | cons v l ih =>
    cases hv : p v with
    | true => rw [List.filter_cons_of_pos hv, List.foldl_cons, List.foldl_cons, ih]
    | false =>
      rw [List.filter_cons_of_neg (by simp [hv]), List.foldl_cons, hf s v hv, ih]

/-- C11: the first loop has no case for `FgDefault` (39) or `BgDefault` (49): deleting
every 39 and 49 from the previous list leaves the result unchanged, for every current
list; `previous = [FgRed, FgDefault]` with an empty current list gives `fg = 31`. -/
theorem ColourConsildate_previous_defaults (prev cur : List Attribute) :
    ColourConsildate cur (prev.filter (fun v => decide (v ≠ FgDefault ∧ v ≠ BgDefault))) =
      ColourConsildate cur prev ∧
    (ColourConsildate [] [FgRed, FgDefault]).1 = 31 := by
  refine ⟨?_, by decide⟩
  simp only [ColourConsildate]
  rw [foldl_filter_noop prevStep _ (fun s v hv => prevStep_default s v ?_)]
  simp only [FgDefault, BgDefault, decide_eq_false_iff_not, not_and_or, not_not,
    Attribute] at hv
  exact hv

/-! ## `Set` without attributes -/

/-- C14: `Set()` with no arguments returns exactly `"\x1b[0m"`: ESC, `[`, `0`, `m`. -/
theorem Set_nil : Set [] = "\x1b[0m".toList ∧ Set [] = [Char.ofNat 27, '[', '0', 'm'] := by
  decide

/-- C15, as stated, fails: `Set()` and `Set(Reset)` are the same string. -/
theorem Set_nil_eq_Set_Reset : ¬ (Set [] ≠ Set [Reset]) := by
  decide

/-- C15, amended: `Set()` and `Set(Reset)` both return `"\x1b[0m"`; the first by its
literal, the second by formatting `Reset` as `0`. -/
theorem Set_Reset : Set [] = "\x1b[0m".toList ∧ Set [Reset] = "\x1b[0m".toList := by
  decide

/-! ## Code-page glyphs -/

theorem IBMTable_length : IBMTable.length = 128 := by
  rfl

/-- C16: `IBMExtend` returns on every byte: below 128 the one-character string of that
byte; from 128 to 255 the index `src - 128` is inside `IBMTable`, which has exactly 128
entries, and the entry at that index is returned. -/
theorem IBMExtend_total (src : Nat) (h : src < 256) :
    IBMTable.length = 128 ∧
    (src < 128 → IBMExtend src = some [Char.ofNat src]) ∧
    (128 ≤ src → ∃ hi : src - 128 < IBMTable.length,
      IBMExtend src = some (IBMTable.get ⟨src - 128, hi⟩)) := by
  refine ⟨IBMTable_length, ?_, ?_⟩
  · intro hlt
    simp [IBMExtend, hlt]
  · intro hge
    have hi : src - 128 < IBMTable.length := by
      rw [IBMTable_length]; omega
    refine ⟨hi, ?_⟩
    have hnot : ¬ src < 128 := by omega
    simp only [IBMExtend, if_neg hnot, List.get_eq_getElem]
    exact List.getElem?_eq_getElem hi

/-- C16 at the bytes 65 (`A`), 128 (first entry) and 255 (last entry). -/
theorem IBMExtend_total_witness :
    IBMExtend 65 = some ['A'] ∧ IBMExtend 128 = some "\u00C7".toList ∧
    IBMExtend 255 = some "\u00A0".toList :=
  ⟨(IBMExtend_total 65 (by decide)).2.1 (by decide),
   ((IBMExtend_total 128 (by decide)).2.2 (by decide)).elim (fun _ e => e.trans rfl),
   ((IBMExtend_total 255 (by decide)).2.2 (by decide)).elim (fun _ e => e.trans rfl)⟩

/-! ## Bold after the first loop, and the range of the results -/

/-- Bold is set in the first loop by `Bold` and by either kind of high-intensity code,
and never cleared. -/
theorem prevStep_isBold (s : Resolve) (v : Nat) :
    (prevStep s v).isBold =
      (s.isBold || decide (v = 1 ∨ (90 ≤ v ∧ v ≤ 97) ∨ (100 ≤ v ∧ v ≤ 107))) := by
  rw [prevStep_eq]
  split_ifs <;> simp_all <;> omega

theorem foldl_prevStep_isBold (l : List Nat) (s : Resolve) :
    (l.foldl prevStep s).isBold =
      (s.isBold || l.any (fun v => decide (v = 1 ∨ (90 ≤ v ∧ v ≤ 97) ∨ (100 ≤ v ∧ v ≤ 107)))) := by
  induction l generalizing s with
  | nil => simp
  | cons v l ih => rw [List.foldl_cons, ih, prevStep_isBold, List.any_cons, Bool.or_assoc]

theorem foldl_curStep_isBold (l : List Nat) (s : Resolve) :
    (l.foldl curStep s).isBold = (s.isBold || l.any (fun v => decide (v = 1))) := by
  induction l generalizing s with
  | nil => simp
  | cons v l ih => rw [List.foldl_cons, ih, curStep_isBold, List.any_cons, Bool.or_assoc]

/-- C18: a high-intensity code of either channel in the previous list sets bold: with
such a previous list, `current = [c]` gives `fg = c + 60` for `c` in 30..37 and
`bg = c + 60` for `c` in 40..47; `previous = [BgHiBlack]`, `current = [FgRed]` gives
`fg = 91`. -/
theorem ColourConsildate_previous_hi_bold (prev : List Attribute) (c : Attribute)
    (h : ∃ v ∈ prev, (90 ≤ v ∧ v ≤ 97) ∨ (100 ≤ v ∧ v ≤ 107)) :
    (30 ≤ c ∧ c ≤ 37 → (ColourConsildate [c] prev).1 = c + 60) ∧
    (40 ≤ c ∧ c ≤ 47 → (ColourConsildate [c] prev).2 = c + 60) ∧
    (ColourConsildate [FgRed] [BgHiBlack]).1 = 91 := by
  have hb : (prev.foldl prevStep
      { isBold := false, fg := FgDefault, bg := BgDefault }).isBold = true := by
    rw [foldl_prevStep_isBold]
    obtain ⟨v, hv, hr⟩ := h
    simp only [Bool.false_or, List.any_eq_true, decide_eq_true_eq]
    exact ⟨v, hv, Or.inr hr⟩
  have hsort : sortSort [c] = [c] := rfl
  refine ⟨?_, ?_, by decide⟩
  · rintro ⟨h1, h2⟩
    simp only [ColourConsildate]
    rw [hsort, List.foldl_cons, List.foldl_nil, curStep_fg_std _ h1 h2, hb, if_pos rfl]
  · rintro ⟨h1, h2⟩
    simp only [ColourConsildate]
    rw [hsort, List.foldl_cons, List.foldl_nil, curStep_bg_std _ h1 h2, hb, if_pos rfl]

/-- C18 at `previous = [FgBlue, BgHiBlack]` and at `previous = [FgHiRed, Reset]`. -/
theorem ColourConsildate_previous_hi_bold_witness :
    (ColourConsildate [FgGreen] [FgBlue, BgHiBlack]).1 = 92 ∧
    (ColourConsildate [BgCyan] [FgHiRed, Reset]).2 = 106 :=
  ⟨(ColourConsildate_previous_hi_bold [FgBlue, BgHiBlack] FgGreen (by decide)).1 (by decide),
   (ColourConsildate_previous_hi_bold [FgHiRed, Reset] BgCyan (by decide)).2.1 (by decide)⟩

/-! ## The range of the results -/

theorem prevStep_range (s : Resolve) (v : Nat) (h : FgRange s.fg ∧ BgRange s.bg) :
    FgRange (prevStep s v).fg ∧ BgRange (prevStep s v).bg := by
  rw [prevStep_eq]
  unfold FgRange BgRange at *
  split_ifs <;> first | exact h | (refine ⟨?_, ?_⟩ <;> first | exact h.1 | exact h.2 | (dsimp only; omega))

theorem curStep_range (s : Resolve) (v : Nat) (h : FgRange s.fg ∧ BgRange s.bg) :
    FgRange (curStep s v).fg ∧ BgRange (curStep s v).bg := by
  rw [curStep_eq]
  unfold FgRange BgRange at *
  split_ifs <;> first | exact h | (refine ⟨?_, ?_⟩ <;> first | exact h.1 | exact h.2 | (dsimp only; omega))

theorem foldl_range (f : Resolve → Nat → Resolve)
    (hf : ∀ s v, FgRange s.fg ∧ BgRange s.bg → FgRange (f s v).fg ∧ BgRange (f s v).bg)
    (l : List Nat) (s : Resolve) (h : FgRange s.fg ∧ BgRange s.bg) :
    FgRange (l.foldl f s).fg ∧ BgRange (l.foldl f s).bg := by
  induction l generalizing s with
  | nil => exact h
  | cons v l ih => exact ih _ (hf s v h)

/-- Both results of `ColourConsildate` lie in their channel's range. -/
theorem ColourConsildate_range_aux (prev cur : List Nat) :
    FgRange (ColourConsildate cur prev).1 ∧ BgRange (ColourConsildate cur prev).2 := by
  simp only [ColourConsildate]
  refine foldl_range curStep curStep_range _ _ (foldl_range prevStep prevStep_range _ _ ?_)
  exact ⟨Or.inl rfl, Or.inl rfl⟩

/-- C19: for arbitrary lists, `fg` is 39 or in 30..37 or in 90..97, and `bg` is 49 or in
40..47 or in 100..107; the two ranges are disjoint, so neither result is a code of the
other channel; and the promotion `c + 60` of a standard colour stays below 256. -/
theorem ColourConsildate_range (prev cur : List Attribute) :
    FgRange (ColourConsildate cur prev).1 ∧ BgRange (ColourConsildate cur prev).2 ∧
    ¬ BgRange (ColourConsildate cur prev).1 ∧ ¬ FgRange (ColourConsildate cur prev).2 ∧
    (∀ c ∈ caseFg, c + (FgHiBlack - FgBlack) < 256 ∧ c + (FgHiBlack - FgBlack) ∈ caseFgHi) ∧
    (∀ c ∈ caseBg, c + (BgHiBlack - BgBlack) < 256 ∧ c + (BgHiBlack - BgBlack) ∈ caseBgHi) := by
  have h := ColourConsildate_range_aux prev cur
  refine ⟨h.1, h.2, ?_, ?_, by decide, by decide⟩
  · have h1 := h.1
    unfold FgRange at h1
    unfold BgRange
    omega
  · have h2 := h.2
    unfold BgRange at h2
    unfold FgRange
    omega

/-! ## Resolving a resolved pair -/

theorem curStep_of_FgRange (s : Resolve) (f : Nat) (hs : s.isBold = false) (hf : FgRange f) :
    curStep s f = { s with fg := f } := by
  rw [curStep_eq]
  unfold FgRange at hf
  split_ifs <;> first | rfl | omega | simp_all

theorem curStep_of_BgRange (s : Resolve) (b : Nat) (hs : s.isBold = false) (hb : BgRange b) :
    curStep s b = { s with bg := b } := by
  rw [curStep_eq]
  unfold BgRange at hb
  split_ifs <;> first | rfl | omega | simp_all

/-- A pair of in-range values resolves to itself against an empty previous list. -/
theorem ColourConsildate_pair (f b : Nat) (hf : FgRange f) (hb : BgRange b) :
    ColourConsildate [f, b] [] = (f, b) := by
  have hsort : sortSort [f, b] = if f ≤ b then [f, b] else [b, f] := by
    by_cases h : f ≤ b
    · simp [sortSort, List.insertionSort, List.orderedInsert, h]
    · simp [sortSort, List.insertionSort, List.orderedInsert, h]
  simp only [ColourConsildate, hsort]
  by_cases h : f ≤ b
  · rw [if_pos h, List.foldl_cons, List.foldl_cons, List.foldl_nil,
      curStep_of_FgRange _ f rfl hf, curStep_of_BgRange _ b rfl hb]
  · rw [if_neg h, List.foldl_cons, List.foldl_cons, List.foldl_nil,
      curStep_of_BgRange _ b rfl hb, curStep_of_FgRange _ f rfl hf]

/-- C13: resolution is idempotent on its own output: resolving the list `[f, b]` made
of the results of any call, with an empty previous list, returns `(f, b)` again. -/
theorem ColourConsildate_idempotent (p c : List Attribute) :
    ColourConsildate [(ColourConsildate c p).1, (ColourConsildate c p).2] [] =
      ColourConsildate c p :=
  ColourConsildate_pair _ _ (ColourConsildate_range_aux p c).1 (ColourConsildate_range_aux p c).2

/-! ## The closed form -/

/-- The first loop leaves in `bg` the last background colour it met, if any. -/
theorem foldl_prevStep_bg (l : List Nat) (s : Resolve) :
    (l.foldl prevStep s).bg = ((l.filter isBgColour).getLast?).getD s.bg := by
  induction l using List.reverseRecOn with
  | nil => rfl
  | append_singleton l v ih =>
    rw [List.foldl_append, List.foldl_cons, List.foldl_nil, prevStep_bg, List.filter_append]
    by_cases hv : (40 ≤ v ∧ v ≤ 47) ∨ (100 ≤ v ∧ v ≤ 107)
    · have hc : isBgColour v = true := by simpa [isBgColour] using hv
      simp [hv, hc, List.filter_cons]
    · have hc : isBgColour v = false := by
        simpa [isBgColour] using hv
      simp [hv, hc, List.filter_cons, ih]

/-- In an ascending list the largest foreground directive `x` decides `fg`: it is
stored as it stands, except that a standard colour is promoted when bold was set on
entry or `Bold` is in the list. -/
theorem foldl_curStep_fg_top (l : List Nat) (s : Resolve) (x : Nat)
    (hs : l.Sorted (fun a b => a ≤ b)) (hmem : x ∈ l)
    (hx : (30 ≤ x ∧ x ≤ 37) ∨ x = 39 ∨ (90 ≤ x ∧ x ≤ 97))
    (htop : ∀ v ∈ l, (30 ≤ v ∧ v ≤ 37) ∨ v = 39 ∨ (90 ≤ v ∧ v ≤ 97) → v ≤ x) :
    (l.foldl curStep s).fg =
      if x ≤ 37 ∧ (s.isBold = true ∨ 1 ∈ l) then x + 60 else x := by
  induction l using List.reverseRecOn with
  | nil => simp at hmem
  | append_singleton l v ih =>
    rw [List.foldl_append, List.foldl_cons, List.foldl_nil]
    have hsorted := List.pairwise_append.1 hs
    have hxv : x ≤ v := by
      rcases List.mem_append.1 hmem with hm | hm
      · exact hsorted.2.2 x hm v (by simp)
      · exact Nat.le_of_eq (List.mem_singleton.1 hm)
    by_cases hv : (30 ≤ v ∧ v ≤ 37) ∨ v = 39 ∨ (90 ≤ v ∧ v ≤ 97)
    · have hvx : v = x := Nat.le_antisymm (htop v (by simp) hv) hxv
      subst hvx
      by_cases hstd : 30 ≤ v ∧ v ≤ 37
      · rw [curStep_fg_std _ hstd.1 hstd.2, foldl_curStep_isBold]
        have h1 : (1 : Nat) ∈ l ++ [v] ↔ 1 ∈ l := by
          simp only [List.mem_append, List.mem_singleton]
          constructor
          · rintro (h | h)
            · exact h
            · omega
          · exact Or.inl
        simp only [h1, Bool.or_eq_true, List.any_eq_true, decide_eq_true_eq, exists_eq_right,
          hstd.2, true_and]
      · rw [curStep_fg_set _ (by omega), if_neg (by omega)]
    · have hne : x ≠ v := fun e => hv (e ▸ hx)
      have hl : x ∈ l := by
        rcases List.mem_append.1 hmem with hm | hm
        · exact hm
        · exact absurd (List.mem_singleton.1 hm) hne
      rw [curStep_fg_keep _ (fun h => hv (Or.inl h)) (fun h => hv (Or.inr (Or.inl h)))
        (fun h => hv (Or.inr (Or.inr h))),
        ih hsorted.1 hl (fun w hw => htop w (List.mem_append_left _ hw))]
      have h1 : (1 : Nat) ∈ l ++ [v] ↔ 1 ∈ l := by
        simp only [List.mem_append, List.mem_singleton]
        constructor
        · rintro (h | h)
          · exact h
          · omega
        · exact Or.inl
      simp only [h1]

/-- In an ascending list the largest background directive `x` decides `bg`: it is
stored as it stands, except that a standard colour is promoted when bold was set on
entry or `Bold` is in the list. -/
theorem foldl_curStep_bg_top (l : List Nat) (s : Resolve) (x : Nat)
    (hs : l.Sorted (fun a b => a ≤ b)) (hmem : x ∈ l)
    (hx : (40 ≤ x ∧ x ≤ 47) ∨ x = 49 ∨ (100 ≤ x ∧ x ≤ 107))
    (htop : ∀ v ∈ l, (40 ≤ v ∧ v ≤ 47) ∨ v = 49 ∨ (100 ≤ v ∧ v ≤ 107) → v ≤ x) :
    (l.foldl curStep s).bg =
      if x ≤ 47 ∧ (s.isBold = true ∨ 1 ∈ l) then x + 60 else x := by
  induction l using List.reverseRecOn with
  | nil => simp at hmem
  | append_singleton l v ih =>
    rw [List.foldl_append, List.foldl_cons, List.foldl_nil]
    have hsorted := List.pairwise_append.1 hs
    have hxv : x ≤ v := by
      rcases List.mem_append.1 hmem with hm | hm
      · exact hsorted.2.2 x hm v (by simp)
      · exact Nat.le_of_eq (List.mem_singleton.1 hm)
    by_cases hv : (40 ≤ v ∧ v ≤ 47) ∨ v = 49 ∨ (100 ≤ v ∧ v ≤ 107)
    · have hvx : v = x := Nat.le_antisymm (htop v (by simp) hv) hxv
      subst hvx
      by_cases hstd : 40 ≤ v ∧ v ≤ 47
      · rw [curStep_bg_std _ hstd.1 hstd.2, foldl_curStep_isBold]
        have h1 : (1 : Nat) ∈ l ++ [v] ↔ 1 ∈ l := by
          simp only [List.mem_append, List.mem_singleton]
          constructor
          · rintro (h | h)
            · exact h
            · omega
          · exact Or.inl
        simp only [h1, Bool.or_eq_true, List.any_eq_true, decide_eq_true_eq, exists_eq_right,
          hstd.2, true_and]
      · rw [curStep_bg_set _ (by omega), if_neg (by omega)]
    · have hne : x ≠ v := fun e => hv (e ▸ hx)
      have hl : x ∈ l := by
        rcases List.mem_append.1 hmem with hm | hm
        · exact hm
        · exact absurd (List.mem_singleton.1 hm) hne
      rw [curStep_bg_keep _ (fun h => hv (Or.inl h)) (fun h => hv (Or.inr (Or.inl h)))
        (fun h => hv (Or.inr (Or.inr h))),
        ih hsorted.1 hl (fun w hw => htop w (List.mem_append_left _ hw))]
      have h1 : (1 : Nat) ∈ l ++ [v] ↔ 1 ∈ l := by
        simp only [List.mem_append, List.mem_singleton]
        constructor
        · rintro (h | h)
          · exact h
          · omega
        · exact Or.inl
      simp only [h1]

theorem largestIn_none {lo hi : Nat} {l : List Nat} (h : largestIn lo hi l = none) :
    ∀ v ∈ l, ¬(lo ≤ v ∧ v ≤ hi) := by
  intro v hv hr
  have hnil := List.max?_eq_none_iff.1 h
  have : v ∈ l.filter (fun v => decide (lo ≤ v) && decide (v ≤ hi)) := by
    simp [List.mem_filter, hv, hr.1, hr.2]
  rw [hnil] at this
  simp at this

theorem largestIn_some {lo hi : Nat} {l : List Nat} {m : Nat} (h : largestIn lo hi l = some m) :
    m ∈ l ∧ (lo ≤ m ∧ m ≤ hi) ∧ ∀ v ∈ l, lo ≤ v ∧ v ≤ hi → v ≤ m := by
  have hm := List.max?_eq_some_iff'.1 h
  have h1 := List.mem_filter.1 hm.1
  refine ⟨h1.1, by simpa using h1.2, ?_⟩
  intro v hv hr
  exact hm.2 v (by simp [List.mem_filter, hv, hr.1, hr.2])

/-- Bold on entry to the second loop, or `Bold` in the current list, is `boldHolds`. -/
theorem boldHolds_iff (prev cur : List Nat) :
    ((prev.foldl prevStep { isBold := false, fg := FgDefault, bg := BgDefault }).isBold = true ∨
      1 ∈ sortSort cur) ↔ boldHolds prev cur = true := by
  rw [foldl_prevStep_isBold, mem_sortSort]
  simp only [boldHolds, Bold, Bool.false_or, List.any_eq_true, decide_eq_true_eq,
    Bool.or_eq_true, Bool.and_eq_true]
  constructor
  · rintro (⟨v, hv, h⟩ | h)
    · rcases h with h | h
      · exact Or.inl (Or.inl (h ▸ hv))
      · exact Or.inr ⟨v, hv, h⟩
    · exact Or.inl (Or.inr h)
  · rintro ((h | h) | ⟨v, hv, h⟩)
    · exact Or.inl ⟨1, h, Or.inl rfl⟩
    · exact Or.inr h
    · exact Or.inl ⟨v, hv, Or.inr h⟩

theorem ColourConsildate_fst_closed (prev cur : List Nat) :
    (ColourConsildate cur prev).1 = closedFg prev cur := by
  simp only [ColourConsildate, closedFg]
  have hs := sortSort_sorted cur
  cases hhi : largestIn 90 97 cur with
  | some h =>
    obtain ⟨hm, hr, htop⟩ := largestIn_some hhi
    rw [foldl_curStep_fg_top _ _ h hs (mem_sortSort.2 hm) (Or.inr (Or.inr hr))
      (fun v hv hd => ?_), if_neg (by omega)]
    rcases hd with hd | hd | hd
    · omega
    · omega
    · exact htop v (mem_sortSort.1 hv) hd
  | none =>
    have hno := largestIn_none hhi
    by_cases h39 : FgDefault ∈ cur
    · simp only [if_pos h39]
      rw [foldl_curStep_fg_top _ _ 39 hs (mem_sortSort.2 h39) (Or.inr (Or.inl rfl))
        (fun v hv hd => ?_), if_neg (by omega)]
      · rfl
      · rcases hd with hd | hd | hd
        · omega
        · omega
        · exact absurd hd (hno v (mem_sortSort.1 hv))
    · simp only [if_neg h39]
      cases hstd : largestIn 30 37 cur with
      | some m =>
        obtain ⟨hm, hr, htop⟩ := largestIn_some hstd
        rw [foldl_curStep_fg_top _ _ m hs (mem_sortSort.2 hm) (Or.inl hr) (fun v hv hd => ?_)]
        · simp only [boldHolds_iff, hr.2, true_and]
        · rcases hd with hd | hd | hd
          · exact htop v (mem_sortSort.1 hv) hd
          · exact absurd (by subst hd; exact mem_sortSort.1 hv) h39
          · exact absurd hd (hno v (mem_sortSort.1 hv))
      | none =>
        have hno2 := largestIn_none hstd
        rw [foldl_curStep_fg_keep _ _ (fun v hv => ?_), foldl_prevStep_fg]
        · rfl
        · have hv' := mem_sortSort.1 hv
          exact ⟨hno2 v hv', fun e => h39 (by subst e; exact hv'), hno v hv'⟩

theorem ColourConsildate_snd_closed (prev cur : List Nat) :
    (ColourConsildate cur prev).2 = closedBg prev cur := by
  simp only [ColourConsildate, closedBg]
  have hs := sortSort_sorted cur
  cases hhi : largestIn 100 107 cur with
  | some h =>
    obtain ⟨hm, hr, htop⟩ := largestIn_some hhi
    rw [foldl_curStep_bg_top _ _ h hs (mem_sortSort.2 hm) (Or.inr (Or.inr hr))
      (fun v hv hd => ?_), if_neg (by omega)]
    rcases hd with hd | hd | hd
    · omega
    · omega
    · exact htop v (mem_sortSort.1 hv) hd
  | none =>
    have hno := largestIn_none hhi
    by_cases h49 : BgDefault ∈ cur
    · simp only [if_pos h49]
      rw [foldl_curStep_bg_top _ _ 49 hs (mem_sortSort.2 h49) (Or.inr (Or.inl rfl))
        (fun v hv hd => ?_), if_neg (by omega)]
      · rfl
      · rcases hd with hd | hd | hd
        · omega
        · omega
        · exact absurd hd (hno v (mem_sortSort.1 hv))
    · simp only [if_neg h49]
      cases hstd : largestIn 40 47 cur with
      | some m =>
        obtain ⟨hm, hr, htop⟩ := largestIn_some hstd
        rw [foldl_curStep_bg_top _ _ m hs (mem_sortSort.2 hm) (Or.inl hr) (fun v hv hd => ?_)]
        · simp only [boldHolds_iff, hr.2, true_and]
        · rcases hd with hd | hd | hd
          · exact htop v (mem_sortSort.1 hv) hd
          · exact absurd (by subst hd; exact mem_sortSort.1 hv) h49
          · exact absurd hd (hno v (mem_sortSort.1 hv))
      | none =>
        have hno2 := largestIn_none hstd
        rw [foldl_curStep_bg_keep _ _ (fun v hv => ?_), foldl_prevStep_bg]
        · rfl
        · have hv' := mem_sortSort.1 hv
          exact ⟨hno2 v hv', fun e => h49 (by subst e; exact hv'), hno v hv'⟩

/-! ## Slices and memory -/

theorem Slice.length_read (s : Slice) (mem : Memory) : (s.read mem).length = s.len := by
  simp [Slice.read]

/-- Reading a slice back after storing into it gives what was stored. -/
theorem Slice.read_store (s : Slice) (vals : List Nat) (mem : Memory)
    (h : vals.length = s.len) : s.read (s.store vals mem) = vals := by
  apply List.ext_getElem
  · simp [Slice.read, h]
  · intro i h1 h2
    have hi : i < s.len := by simpa [Slice.read] using h1
    simp [Slice.read, Slice.store, hi, List.getElem?_eq_getElem h2]

/-- A store into one slice is not seen through a slice that shares no cell with it. -/
theorem Slice.read_store_apart (s t : Slice) (vals : List Nat) (mem : Memory)
    (h : s.apart t = true) : t.read (s.store vals mem) = t.read mem := by
  simp only [Slice.apart, decide_eq_true_eq] at h
  simp only [Slice.read]
  apply List.map_congr_left
  intro i hi
  have hi' : i < t.len := List.mem_range.1 hi
  have : ¬(s.ptr ≤ t.ptr + i ∧ t.ptr + i < s.ptr + s.len) := by omega
  simp only [Slice.store, if_neg this]

/-- A store into a slice leaves every cell outside it as it was. -/
theorem Slice.store_outside (s : Slice) (vals : List Nat) (mem : Memory) (a : Nat)
    (h : ¬(s.ptr ≤ a ∧ a < s.ptr + s.len)) : s.store vals mem a = mem a := by
  simp only [Slice.store, if_neg h]

/-- After the call the cells of `al` hold its former contents, sorted. -/
theorem ColourConsildateRun_al (mem : Memory) (al prev : Slice) :
    al.read (ColourConsildateRun mem al prev).mem = sortSort (al.read mem) := by
  simp only [ColourConsildateRun]
  exact Slice.read_store al _ mem (((sortSort_perm _).length_eq).trans (Slice.length_read al mem))

/-- The results of a call on slices are those of `ColourConsildate` on the contents of
`al` at the call and the contents of `prevAtList` once `al` has been sorted. -/
theorem ColourConsildateRun_result (mem : Memory) (al prev : Slice) :
    ((ColourConsildateRun mem al prev).fg, (ColourConsildateRun mem al prev).bg) =
      ColourConsildate (al.read mem) (prev.read (ColourConsildateRun mem al prev).mem) := by
  have h := ColourConsildateRun_al mem al prev
  simp only [ColourConsildateRun] at h ⊢
  simp only [ColourConsildate, h]

/-- With `prevAtList` sharing no cell with `al`, the results are those of
`ColourConsildate` on the contents of both slices at the call. -/
theorem ColourConsildateRun_result_apart (mem : Memory) (al prev : Slice)
    (h : al.apart prev = true) :
    ((ColourConsildateRun mem al prev).fg, (ColourConsildateRun mem al prev).bg) =
      ColourConsildate (al.read mem) (prev.read mem) := by
  rw [ColourConsildateRun_result]
  simp only [ColourConsildateRun]
  rw [Slice.read_store_apart al prev _ mem h]

/-! ## Order of arrival, on slices -/

/-- C2, as stated, fails on slices that share cells.  The current list is `[100, 31]`
in one call and `[31, 100]` in the other, and the previous list is the one cell holding
100 in both.  In the first call that cell is the first cell of `al`: the sort puts 31
there before the first loop reads it, and the call returns (31, 100); the second call
returns (91, 100). -/
theorem ColourConsildateRun_order_matters :
    (Slice.read ⟨0, 2⟩ (memOf [100, 31])).Perm (Slice.read ⟨0, 2⟩ (memOf [31, 100])) ∧
    Slice.read ⟨0, 1⟩ (memOf [100, 31]) = Slice.read ⟨1, 1⟩ (memOf [31, 100]) ∧
    ((ColourConsildateRun (memOf [100, 31]) ⟨0, 2⟩ ⟨0, 1⟩).fg,
      (ColourConsildateRun (memOf [100, 31]) ⟨0, 2⟩ ⟨0, 1⟩).bg) = (31, 100) ∧
    ((ColourConsildateRun (memOf [31, 100]) ⟨0, 2⟩ ⟨1, 1⟩).fg,
      (ColourConsildateRun (memOf [31, 100]) ⟨0, 2⟩ ⟨1, 1⟩).bg) = (91, 100) := by
  decide

/-- C2, amended: when the previous list shares no cell with the current list, the
result does not depend on the order in which the current list arrives: two calls whose
current lists are permutations of each other and whose previous lists have the same
contents return the same pair.  A current list `[FgRed, Bold]` or `[Bold, FgRed]` gives
`fg = 91` whatever the previous list. -/
theorem ColourConsildateRun_perm (mem₁ mem₂ : Memory) (al₁ al₂ prev₁ prev₂ : Slice)
    (h₁ : al₁.apart prev₁ = true) (h₂ : al₂.apart prev₂ = true)
    (hcur : (al₁.read mem₁).Perm (al₂.read mem₂))
    (hprev : prev₁.read mem₁ = prev₂.read mem₂) :
    ((ColourConsildateRun mem₁ al₁ prev₁).fg, (ColourConsildateRun mem₁ al₁ prev₁).bg) =
      ((ColourConsildateRun mem₂ al₂ prev₂).fg, (ColourConsildateRun mem₂ al₂ prev₂).bg) ∧
    (∀ (mem : Memory) (al prev : Slice),
      al.read mem = [FgRed, Bold] ∨ al.read mem = [Bold, FgRed] →
      (ColourConsildateRun mem al prev).fg = 91) := by
  constructor
  · rw [ColourConsildateRun_result_apart mem₁ al₁ prev₁ h₁,
      ColourConsildateRun_result_apart mem₂ al₂ prev₂ h₂, hprev]
    simp only [ColourConsildate, sortSort_eq_of_perm hcur]
  · intro mem al prev hal
    have hr := congrArg Prod.fst (ColourConsildateRun_result mem al prev)
    simp only at hr
    rw [hr]
    have hs : sortSort (al.read mem) = [1, 31] := by
      rcases hal with h | h <;> rw [h] <;> decide
    simp only [ColourConsildate, hs, List.foldl_cons, List.foldl_nil]
    rw [curStep_fg_std _ (by decide) (by decide), curStep_isBold]
    simp

/-- C2 amended, at two arrangements of `Bold, FgGreen, BgDefault` with the previous
list `[BgBlue]` stored after them. -/
theorem ColourConsildateRun_perm_witness :
    ((ColourConsildateRun (memOf [FgGreen, BgDefault, Bold, BgBlue]) ⟨0, 3⟩ ⟨3, 1⟩).fg,
      (ColourConsildateRun (memOf [FgGreen, BgDefault, Bold, BgBlue]) ⟨0, 3⟩ ⟨3, 1⟩).bg) =
    ((ColourConsildateRun (memOf [Bold, FgGreen, BgDefault, BgBlue]) ⟨0, 3⟩ ⟨3, 1⟩).fg,
      (ColourConsildateRun (memOf [Bold, FgGreen, BgDefault, BgBlue]) ⟨0, 3⟩ ⟨3, 1⟩).bg) :=
  (ColourConsildateRun_perm (memOf [FgGreen, BgDefault, Bold, BgBlue])
    (memOf [Bold, FgGreen, BgDefault, BgBlue]) ⟨0, 3⟩ ⟨0, 3⟩ ⟨3, 1⟩ ⟨3, 1⟩
    (by decide) (by decide) (by decide) (by decide)).1

/-! ## The caller's lists -/

/-- C12, as stated, fails when the previous list is the receiver itself: after
`al.ColourConsildate(al...)` with `al = [FgBlue, FgRed]` the previous list reads
`[31, 34]`, not `[34, 31]` as before the call. -/
theorem ColourConsildateRun_previous_changed :
    Slice.read ⟨0, 2⟩ (memOf [FgBlue, FgRed]) = [34, 31] ∧
    Slice.read ⟨0, 2⟩ (ColourConsildateRun (memOf [FgBlue, FgRed]) ⟨0, 2⟩ ⟨0, 2⟩).mem =
      [31, 34] ∧
    Slice.read ⟨0, 2⟩ (ColourConsildateRun (memOf [FgBlue, FgRed]) ⟨0, 2⟩ ⟨0, 2⟩).mem ≠
      Slice.read ⟨0, 2⟩ (memOf [FgBlue, FgRed]) := by
  decide

/-- C12, amended: after the call the caller's `al` holds the same attributes as before
(a permutation, hence the same length) in ascending order, not `[fg, bg]`; every cell
outside `al` is as it was, so a previous list that shares no cell with `al` is
unchanged. -/
theorem ColourConsildateRun_caller (mem : Memory) (al prev : Slice) :
    (al.read (ColourConsildateRun mem al prev).mem).Perm (al.read mem) ∧
    (al.read (ColourConsildateRun mem al prev).mem).Sorted (fun a b => a ≤ b) ∧
    (al.read (ColourConsildateRun mem al prev).mem).length = (al.read mem).length ∧
    (∀ a, ¬(al.ptr ≤ a ∧ a < al.ptr + al.len) →
      (ColourConsildateRun mem al prev).mem a = mem a) ∧
    (al.apart prev = true →
      prev.read (ColourConsildateRun mem al prev).mem = prev.read mem) := by
  have h := ColourConsildateRun_al mem al prev
  refine ⟨?_, ?_, ?_, ?_, ?_⟩
  · rw [h]; exact sortSort_perm _
  · rw [h]; exact sortSort_sorted _
  · rw [h]; exact (sortSort_perm _).length_eq
  · intro a ha
    simp only [ColourConsildateRun]
    exact Slice.store_outside al _ mem a ha
  · intro hap
    simp only [ColourConsildateRun]
    exact Slice.read_store_apart al prev _ mem hap

/-- C12 amended, at `al = [FgRed, Bold, Underline]` with the previous list
`[BgBlue, Reset]` stored after it: the caller's `al` ends as `[1, 4, 31]`, three
attributes and not the pair `[91, 44]` of results, and the previous list is as it was. -/
theorem ColourConsildateRun_caller_witness :
    Slice.read ⟨0, 3⟩
      (ColourConsildateRun (memOf [FgRed, Bold, Underline, BgBlue, Reset]) ⟨0, 3⟩ ⟨3, 2⟩).mem =
        [1, 4, 31] ∧
    Slice.read ⟨3, 2⟩
      (ColourConsildateRun (memOf [FgRed, Bold, Underline, BgBlue, Reset]) ⟨0, 3⟩ ⟨3, 2⟩).mem =
        [BgBlue, Reset] ∧
    ((ColourConsildateRun (memOf [FgRed, Bold, Underline, BgBlue, Reset]) ⟨0, 3⟩ ⟨3, 2⟩).fg,
      (ColourConsildateRun (memOf [FgRed, Bold, Underline, BgBlue, Reset]) ⟨0, 3⟩ ⟨3, 2⟩).bg) =
        (91, 44) :=
  ⟨by decide,
   ((ColourConsildateRun_caller (memOf [FgRed, Bold, Underline, BgBlue, Reset]) ⟨0, 3⟩
      ⟨3, 2⟩).2.2.2.2 (by decide)).trans (by decide),
   by decide⟩

/-! ## The closed form, on slices -/

/-- C17, as stated, fails on slices that share cells.  With `al = [104, 35]` and the
previous list its first cell, the closed form of previous `[104]` and current
`[104, 35]` is (95, 104), bold holding through 104; the call sorts `al` first, reads 35
as the previous list, never sets bold and returns (35, 104). -/
theorem ColourConsildateRun_not_closed_form :
    Slice.read ⟨0, 2⟩ (memOf [104, 35]) = [104, 35] ∧
    Slice.read ⟨0, 1⟩ (memOf [104, 35]) = [104] ∧
    (closedFg [104] [104, 35], closedBg [104] [104, 35]) = (95, 104) ∧
    ((ColourConsildateRun (memOf [104, 35]) ⟨0, 2⟩ ⟨0, 1⟩).fg,
      (ColourConsildateRun (memOf [104, 35]) ⟨0, 2⟩ ⟨0, 1⟩).bg) = (35, 104) := by
  decide

/-- C17, amended: the closed form of `ColourConsildate` holds when the previous list
shares no cell with the current list.  With bold holding iff `Bold` occurs in the
previous or current list or a code in 90..97 or 100..107 occurs in the previous list:
`fg` is the largest code of the current list in 90..97 if there is one; otherwise 39 if
the current list contains 39; otherwise the largest code `m` of the current list in
30..37, as `m + 60` under bold and as `m` without; otherwise the last code of the
previous list in 30..37 or 90..97, or 39.  `bg` follows the same rule with 100..107,
49, 40..47 and the last code of the previous list in 40..47 or 100..107, or 49.  For
slices that overlap, the same form holds of the previous list as it reads once the
current list has been sorted. -/
theorem ColourConsildateRun_closed_form (mem : Memory) (al prev : Slice) :
    (al.apart prev = true →
      ((ColourConsildateRun mem al prev).fg, (ColourConsildateRun mem al prev).bg) =
        (closedFg (prev.read mem) (al.read mem), closedBg (prev.read mem) (al.read mem))) ∧
    ((ColourConsildateRun mem al prev).fg, (ColourConsildateRun mem al prev).bg) =
      (closedFg (prev.read (ColourConsildateRun mem al prev).mem) (al.read mem),
        closedBg (prev.read (ColourConsildateRun mem al prev).mem) (al.read mem)) := by
  constructor
  · intro h
    rw [ColourConsildateRun_result_apart mem al prev h]
    exact Prod.ext (ColourConsildate_fst_closed _ _) (ColourConsildate_snd_closed _ _)
  · rw [ColourConsildateRun_result]
    exact Prod.ext (ColourConsildate_fst_closed _ _) (ColourConsildate_snd_closed _ _)

/-- C17 amended, at previous `[104]` stored after current `[104, 35]`: bold holds
through the previous 104 and the call returns (95, 104). -/
theorem ColourConsildateRun_closed_form_witness :
    ((ColourConsildateRun (memOf [104, 35, 104]) ⟨0, 2⟩ ⟨2, 1⟩).fg,
      (ColourConsildateRun (memOf [104, 35, 104]) ⟨0, 2⟩ ⟨2, 1⟩).bg) = (95, 104) :=
  ((ColourConsildateRun_closed_form (memOf [104, 35, 104]) ⟨0, 2⟩ ⟨2, 1⟩).1
    (by decide)).trans (by decide)

end ansi
